import Mathlib

/-!
Verification of the markjar line-oriented editor core (`src/markjar.ts`).

The DOM is shallowly embedded: a node is either a text node or an element
node with a tag, a class list and a list of child nodes.  The editor's
direct children (the rendered line nodes) are modelled as a `List MNode`;
the editor element itself is not an `MNode`, it is the root of the model.
Strings are modelled as `List Char` so that splitting and joining on the
line separator can be reasoned about by structural induction.

The external tokenizer (`hljs.highlight` wrapped by `doHighlight`) is a
parameter `tok : Str → List MNode` producing the child nodes of a rendered
line; the tokenizer round-trip contract of the spec is the hypothesis
`∀ s, textContentList (tok s) = s`.
-/

set_option linter.unusedVariables false

namespace Markjar

abbrev Str := List Char

/-- A DOM node: a text node carrying its text, or an element node with a
tag name, a class list and child nodes.  `<br>` is `elem "br" [] []`. -/
inductive MNode where
  | text (s : Str)
  | elem (tag : String) (classes : List String) (children : List MNode)

mutual

/-- `node.textContent`: the concatenated text of all descendant text nodes. -/
def textContent : MNode → Str
  | .text s => s
  | .elem _ _ cs => textContentList cs

/-- Concatenated `textContent` of a list of sibling nodes, in order. -/
def textContentList : List MNode → Str
  | [] => []
  | c :: cs => textContent c ++ textContentList cs

end

/-- JS `text.split(sep)` for a one-character separator: always returns at
least one element (`"".split(sep)` is `[""]`). -/
def splitChar (sep : Char) : Str → List Str
  | [] => [[]]
  | c :: cs =>
    if c = sep then [] :: splitChar sep cs
    else
      match splitChar sep cs with
      | [] => [[c]]
      | r :: rs => (c :: r) :: rs

/-- JS `parts.join(sep)` for a one-character separator. -/
def joinSep (sep : Char) : List Str → Str
  | [] => []
  | [l] => l
  | l :: ls => l ++ sep :: joinSep sep ls

/-- `isFixedWidthBlock`: an element node whose class list contains
`mj-block`. -/
def isFixedWidthBlock : MNode → Bool
  | .elem _ cls _ => "mj-block" ∈ cls
  | .text _ => false

/-- `shouldSetCursor`: an element node whose class list contains
`mj-cursor` (the Anchor Marker). -/
def shouldSetCursor : MNode → Bool
  | .elem _ cls _ => "mj-cursor" ∈ cls
  | .text _ => false

/-- `createLine(text)`: a `div.mj-line` whose content is the tokenizer's
output for `text`, or a single `<br>` when `text` is empty. -/
def createLine (tok : Str → List MNode) (s : Str) : MNode :=
  .elem "div" ["mj-line"] (if s = [] then [.elem "br" [] []] else tok s)

/-- `updateLine(text)`: `createLine(text)`, with an Anchor Marker
(`span.mj-cursor`) appended when the last child is a fixed-width block. -/
def updateLine (tok : Str → List MNode) (s : Str) : MNode :=
  match createLine tok s with
  | .elem tag cls cs =>
    match cs.getLast? with
    | some c =>
      if isFixedWidthBlock c then .elem tag cls (cs ++ [.elem "span" ["mj-cursor"] []])
      else .elem tag cls cs
    | none => .elem tag cls cs
  | n => n

/-- The loop of `#updateText` together with the trailing `while` removal:
walk the desired line texts against the current children, keeping a child
whose text already matches, replacing (or appending) a freshly created line
otherwise, and dropping every child beyond the desired length. -/
def updateTextLoop (tok : Str → List MNode) : List Str → List MNode → List MNode
  | [], _ => []
  | t :: ts, [] => createLine tok t :: updateTextLoop tok ts []
  | t :: ts, c :: cs =>
    (if t = textContent c then c else createLine tok t) :: updateTextLoop tok ts cs

/-- `#updateText(text)`: split on the line separator and reconcile the
children against the resulting line texts. -/
def updateText (tok : Str → List MNode) (children : List MNode) (text : Str) : List MNode :=
  updateTextLoop tok (splitChar '\n' text) children

/-- `getText()`: each rendered line's text content, joined by `'\n'`. -/
def getText (children : List MNode) : Str :=
  joinSep '\n' (children.map textContent)

/-!
## Selection and position mapping

A node reachable from the editor is addressed by its path of child indices:
`[]` is the editor element itself, `[i]` its `i`-th child (a rendered line),
`[i, j]` the `j`-th child of that line, and so on.  A selection endpoint may
also sit on the document root (where `document.createRange()` starts) or on
a node with no parent at all.
-/

/-- A node a selection endpoint can rest on. -/
inductive SelNode where
  | docRoot
  | inTree (path : List Nat)
  | orphan
deriving DecidableEq, Repr

/-- A DOM `Range`: start and end containers with their offsets. -/
structure Range where
  startContainer : SelNode
  startOffset : Nat
  endContainer : SelNode
  endOffset : Nat
deriving DecidableEq, Repr

/-- `document.createRange()`: collapsed at the document root, offset 0. -/
def freshRange : Range := ⟨.docRoot, 0, .docRoot, 0⟩

/-- `range.setEnd(node, k)` followed by `range.collapse()`: the range ends
up collapsed at `(node, k)`. -/
def collapsedRange (n : SelNode) (k : Nat) : Range := ⟨n, k, n, k⟩

/-- A logical cursor position.  `line` is an `Int` because the code stores
`Array.prototype.indexOf`'s result, which is `-1` when the element is not a
direct child of the editor. -/
structure CursorPos where
  line : Int
  column : Nat
deriving DecidableEq, Repr

/-- The editor's observable state: its child nodes and the window
selection (`none` models `window.getSelection()` returning null). -/
structure EState where
  children : List MNode
  selection : Option Range

/-- Resolve a path inside one node (`[]` is the node itself). -/
def resolveIn : MNode → List Nat → Option MNode
  | n, [] => some n
  | .text _, _ :: _ => none
  | .elem _ _ cs, i :: p =>
    match cs[i]? with
    | some c => resolveIn c p
    | none => none

/-- Resolve a path from the editor root.  The editor element itself
(path `[]`) is not an `MNode`, so it does not resolve. -/
def resolve (children : List MNode) : List Nat → Option MNode
  | [] => none
  | i :: p =>
    match children[i]? with
    | some c => resolveIn c p
    | none => none

/-- The ancestor walk of `closest('div')`, over the reversed path: dropping
the head of the reversed path is moving to the parent. -/
def closestDivRev (children : List MNode) : List Nat → Option (List Nat)
  | [] => none
  | j :: rev =>
    match resolve children (j :: rev).reverse with
    | some (.elem "div" _ _) => some (j :: rev).reverse
    | _ => closestDivRev children rev

/-- `element.closest('div')` started at the node addressed by `path`,
walking up through the ancestors inside the editor.  Ancestors above the
editor element are outside the model, so the walk stops (without a match)
at the editor. -/
def closestDiv (children : List MNode) (path : List Nat) : Option (List Nat) :=
  closestDivRev children path.reverse

/-- `#getLineElement(node)`: `null` for the editor itself or a node with no
parent element; the node itself when its parent is the editor; otherwise
`node.parentElement.closest('div')`. -/
def getLineElement (children : List MNode) : SelNode → Option (List Nat)
  | .docRoot => none
  | .orphan => none
  | .inTree [] => none
  | .inTree [i] => some [i]
  | .inTree (i :: j :: p) => closestDiv children (i :: j :: p).dropLast

/-- `Array.prototype.indexOf.call(editor.children, element)`: the index of
the element among the editor's direct children, `-1` otherwise.  A node at
path `[i]` is identical to `editor.children[i]`; a deeper node is never
identical to a direct child. -/
def lineIndexOf (children : List MNode) : List Nat → Int
  | [i] => if i < children.length then (i : Int) else -1
  | _ => -1

/-- Text length of the range that starts at the beginning of `n`'s contents
and ends at `(path, off)` inside `n` (the `preRange.toString().length` of
`#getCursorPos`).  Ending on a text node counts `off` characters of it;
ending on an element counts its first `off` children whole. -/
def textUpTo : MNode → List Nat → Nat → Nat
  | .text s, [], off => min off s.length
  | .elem _ _ cs, [], off => (textContentList (cs.take off)).length
  | .text s, _ :: _, _ => s.length
  | .elem _ _ cs, i :: p, off =>
    (textContentList (cs.take i)).length +
      match cs[i]? with
      | some c => textUpTo c p off
      | none => 0

/-- Length of the `preRange` of `#getCursorPos`: from the start of the line
element at `linePath` to the selection's end container and offset.  An end
container outside the line element collapses the range to the empty
string. -/
def preRangeLen (children : List MNode) (linePath : List Nat) : SelNode → Nat → Nat
  | .inTree p, off =>
    if linePath.isPrefixOf p then
      match resolve children linePath with
      | some el => textUpTo el (p.drop linePath.length) off
      | none => 0
    else 0
  | _, _ => 0

/-- `#getCursorPos()`: `null` without a selection or an enclosing line;
otherwise the line element's index among the editor's children and the
text length from the line's start to the selection end. -/
def getCursorPos (children : List MNode) (sel : Option Range) : Option CursorPos :=
  match sel with
  | none => none
  | some r =>
    match getLineElement children r.startContainer with
    | none => none
    | some q => some ⟨lineIndexOf children q, preRangeLen children q r.endContainer r.endOffset⟩

mutual

/-- `walkNode` of `moveCursorToColumn`, with the mutable `offset`/`found`
state made explicit: `.inl off` means no text node reached `column` and the
accumulated offset is `off`; `.inr (p, off)` means the text node at
relative path `p` was the first to satisfy `offset + text.length >= column`,
with `off` the accumulated offset at that moment. -/
def walkNode (column : Nat) : MNode → Nat → Nat ⊕ (List Nat × Nat)
  | .text s, offset =>
    if column ≤ offset + s.length then .inr ([], offset) else .inl (offset + s.length)
  | .elem _ _ cs, offset => walkChildren column cs 0 offset

/-- The child loop of `walkNode` (`i` is the index of the next child). -/
def walkChildren (column : Nat) : List MNode → Nat → Nat → Nat ⊕ (List Nat × Nat)
  | [], _, offset => .inl offset
  | c :: cs, i, offset =>
    match walkNode column c offset with
    | .inl off => walkChildren column cs (i + 1) off
    | .inr (p, off) => .inr (i :: p, off)

end

/-- `moveTo(node)` of `moveCursorToColumn`: look at
`node.parentElement.nextSibling`; if it is an Anchor Marker, collapse the
range at its offset 0, otherwise collapse at `(node, column - offset)`.
When the found node's parent is the editor itself, the parent's next
sibling lies outside the modelled tree and the Anchor Marker branch is not
taken. -/
def moveTo (children : List MNode) (absPath : List Nat) (column offset : Nat)
    (range : Range) : Range :=
  let parentPath := absPath.dropLast
  let sib? : Option (List Nat × MNode) :=
    match parentPath.getLast? with
    | none => none
    | some j =>
      let sp := parentPath.dropLast ++ [j + 1]
      match resolve children sp with
      | some n => some (sp, n)
      | none => none
  match sib? with
  | some (sp, n) =>
    if shouldSetCursor n then collapsedRange (.inTree sp) 0
    else collapsedRange (.inTree absPath) (column - offset)
  | none => collapsedRange (.inTree absPath) (column - offset)

/-- `moveCursorToColumn(element, column, range)` for the element at
`elementPath`: empty-text fast path collapses at the element itself;
otherwise walk the leaves; when no leaf reaches `column` the range is
returned untouched (the walk sets `found` but never the range). -/
def moveCursorToColumn (children : List MNode) (elementPath : List Nat) (column : Nat)
    (range : Range) : Range :=
  match resolve children elementPath with
  | none => range
  | some el =>
    if (textContent el).length = 0 then collapsedRange (.inTree elementPath) 0
    else
      match walkNode column el 0 with
      | .inl _ => range
      | .inr (p, off) => moveTo children (elementPath ++ p) column off range

/-- `#setCursorPos(pos)`: a missing position or selection leaves the
selection unchanged; otherwise the line index is clamped into
`[0, children.length - 1]` and a fresh range is driven through
`moveCursorToColumn` on that line, becoming the new selection. -/
def setCursorPos (children : List MNode) (sel : Option Range) (pos : Option CursorPos) :
    Option Range :=
  match pos, sel with
  | none, _ => sel
  | some _, none => sel
  | some p, some _ =>
    let validLine : Int := min (max p.line 0) ((children.length : Int) - 1)
    some (moveCursorToColumn children [validLine.toNat] p.column freshRange)

/-- `setText(text)`: snapshot the cursor, reconcile the children, restore
the cursor against the new children. -/
def setText (tok : Str → List MNode) (st : EState) (text : Str) : EState :=
  let pos := getCursorPos st.children st.selection
  let children' := updateText tok st.children text
  { children := children', selection := setCursorPos children' st.selection pos }

/-- The constructor's `editor.innerHTML = '<div class="mj-line"></div>'`:
one empty rendered line; the window selection is whatever it was. -/
def initEditor (sel : Option Range) : EState :=
  { children := [.elem "div" ["mj-line"] []], selection := sel }

/-!
## Dirty tracker and scheduler (`#changedLines`, `makeIdle`,
`#requestForUpdate`)

A rendered line's identity is modelled by its path at notification time.
`lastId` is the closure variable `id` of `makeIdle`; `pendingIds` is the
host's view of callbacks that are scheduled, not cancelled and not yet
fired; `passes` logs, for each reconciliation pass that fired, the dirty
set it processed.
-/

/-- Scheduler state. -/
structure SchedState where
  dirty : List (List Nat)
  lastId : Option Nat
  pendingIds : List Nat
  nextId : Nat
  passes : List (List (List Nat))
deriving DecidableEq, Repr

/-- Before any edit: empty dirty set, `makeIdle`'s `id` still undefined,
nothing scheduled, nothing fired. -/
def initSched : SchedState := ⟨[], none, [], 0, []⟩

/-- `Set.add`: membership-only, insertion keeps the first occurrence. -/
def setAdd (s : List (List Nat)) (x : List Nat) : List (List Nat) :=
  if x ∈ s then s else s ++ [x]

/-- The body of `makeIdle`'s returned closure:
`cancelIdleCallback(id); id = requestIdleCallback(...)` — cancel the
previously armed callback, then schedule a fresh one. -/
def arm (st : SchedState) : SchedState :=
  let afterCancel :=
    match st.lastId with
    | some i => st.pendingIds.erase i
    | none => st.pendingIds
  { st with
    pendingIds := afterCancel ++ [st.nextId]
    lastId := some st.nextId
    nextId := st.nextId + 1 }

/-- One edit notification carrying the affected line (`none` when
`#getLineElement` found no enclosing line): add to the dirty set and
re-arm, or do nothing. -/
def notifyEdit (st : SchedState) : Option (List Nat) → SchedState
  | some l => arm { st with dirty := setAdd st.dirty l }
  | none => st

/-- `#onBeforeInput`: resolve the notified point to its enclosing line and
feed it to the dirty tracker. -/
def onBeforeInput (children : List MNode) (st : SchedState) (target : SelNode) : SchedState :=
  notifyEdit st (getLineElement children target)

/-- A burst of notifications, all of which found their line. -/
def burstState (lines : List (List Nat)) : SchedState :=
  lines.foldl (fun s l => notifyEdit s (some l)) initSched

/-- The host fires the scheduled callback `id`: if it is still pending, the
reconciliation pass runs — it processes the current dirty set (logged into
`passes`) and clears it.  A cancelled or unknown id never runs. -/
def fire (st : SchedState) (id : Nat) : SchedState :=
  if id ∈ st.pendingIds then
    { st with
      pendingIds := st.pendingIds.erase id
      passes := st.passes ++ [st.dirty]
      dirty := [] }
  else st

/-!
## Reconciliation over the dirty set (`#requestForUpdate`'s forEach)

Node identity matters here (`line.parentElement !== editor`), so nodes are
stored by id: `content` maps a node id to its current value and `childIds`
lists the editor's direct children.  `morphdom(line, newLine)` mutates
`line`'s subtree to match `newLine`, so the patched node's value becomes
`updateLine` of its live text.
-/

/-- An id-addressed view of the document for the patching pass. -/
structure Doc where
  content : Nat → MNode
  childIds : List Nat

/-- One iteration of the `forEach` over `#changedLines`: a line no longer
parented under the editor is skipped and logged
(`console.warn('Line not in editor', line)`); otherwise it is re-tokenized
from its live text and patched in place. -/
def patchStep (tok : Str → List MNode) (acc : Doc × List Nat) (l : Nat) : Doc × List Nat :=
  if l ∈ acc.1.childIds then
    ({ acc.1 with
       content := fun i =>
         if i = l then updateLine tok (textContent (acc.1.content l)) else acc.1.content i },
     acc.2)
  else (acc.1, acc.2 ++ [l])

/-- The whole `forEach`: patch every attached dirty line, collect a
diagnostic for every detached one. -/
def reconcileDirty (tok : Str → List MNode) (doc : Doc) (dirty : List Nat) :
    Doc × List Nat :=
  dirty.foldl (patchStep tok) (doc, [])

/-!
## Concrete fixtures used to instantiate the theorems
-/

/-- The simplest tokenizer satisfying the round-trip contract: a single
text leaf. -/
def tok0 : Str → List MNode := fun s => [.text s]

/-- The tokenizer output for the line `"# "`: one span classified by the
`H1_HASH` rule of `PromptMark` (`section mj-hash mj-h1-hash mj-block`). -/
def tokHash : Str → List MNode :=
  fun s => [.elem "span" ["section", "mj-hash", "mj-h1-hash", "mj-block"] [.text s]]

/-- The rendered line for text `"# "` after `updateLine`: the block span
followed by the Anchor Marker `span.mj-cursor`. -/
def hashLine : MNode := updateLine tokHash ("# ".toList)

/-- A rendered line holding a single text leaf. -/
def plainLine (s : Str) : MNode := .elem "div" ["mj-line"] [.text s]

/-- The rendered empty line `createLine('')`: a `div.mj-line` holding
`<br>`. -/
def emptyBrLine : MNode := .elem "div" ["mj-line"] [.elem "br" [] []]

/-- A six-line document whose selection is collapsed in line 5 at column 3
(so that `#getCursorPos` snapshots `{line: 5, column: 3}`). -/
def st6 : EState :=
  { children :=
      [plainLine ("l0".toList), plainLine ("l1".toList), plainLine ("l2".toList),
       plainLine ("l3".toList), plainLine ("l4".toList), plainLine ("abcde".toList)]
    selection := some ⟨.inTree [5, 0], 3, .inTree [5, 0], 3⟩ }

/-- A concrete document for the reconciliation pass: node 0 is attached,
node 5 is not. -/
def docW : Doc :=
  { content := fun i => if i = 0 then plainLine ("a".toList) else plainLine ("z".toList)
    childIds := [0] }

/-!
## Theorems
-/

theorem textContentList_append (as bs : List MNode) :
    textContentList (as ++ bs) = textContentList as ++ textContentList bs := by
  induction as with
  | nil => simp [textContentList]
  | cons a as ih => simp [textContentList, ih]

theorem textContent_createLine (tok : Str → List MNode)
    (htok : ∀ s, textContentList (tok s) = s) (s : Str) :
    textContent (createLine tok s) = s := by
  unfold createLine
  by_cases h : s = []
  · subst h; simp [textContent, textContentList]
  · rw [if_neg h]
    show textContentList (tok s) = s
    exact htok s

theorem splitChar_ne_nil (sep : Char) (s : Str) : splitChar sep s ≠ [] := by
  cases s with
  | nil => simp [splitChar]
  | cons c cs =>
    unfold splitChar
    by_cases h : c = sep
    · simp [h]
    · rw [if_neg h]
      cases splitChar sep cs <;> simp

theorem joinSep_splitChar (sep : Char) (s : Str) :
    joinSep sep (splitChar sep s) = s := by
  induction s with
  | nil => rfl
  | cons c cs ih =>
    obtain ⟨r, rs, hr⟩ := List.exists_cons_of_ne_nil (splitChar_ne_nil sep cs)
    rw [hr] at ih
    unfold splitChar
    by_cases h : c = sep
    · rw [if_pos h, hr]
      show [] ++ sep :: joinSep sep (r :: rs) = c :: cs
      rw [List.nil_append, ih, h]
    · rw [if_neg h, hr]
      cases rs with
      | nil => show c :: r = c :: cs; rw [show joinSep sep [r] = r from rfl] at ih; rw [ih]
      | cons a as =>
        show (c :: r) ++ sep :: joinSep sep (a :: as) = c :: cs
        rw [List.cons_append]
        rw [show joinSep sep (r :: a :: as) = r ++ sep :: joinSep sep (a :: as) from rfl] at ih
        rw [ih]

theorem updateTextLoop_length (tok : Str → List MNode) (ts : List Str) (cs : List MNode) :
    (updateTextLoop tok ts cs).length = ts.length := by
  induction ts generalizing cs with
  | nil => rfl
  | cons t ts ih => cases cs <;> simp [updateTextLoop, ih]

theorem updateTextLoop_map_textContent (tok : Str → List MNode)
    (htok : ∀ s, textContentList (tok s) = s) (ts : List Str) (cs : List MNode) :
    (updateTextLoop tok ts cs).map textContent = ts := by
  induction ts generalizing cs with
  | nil => rfl
  | cons t ts ih =>
    cases cs with
    | nil => simp [updateTextLoop, ih, textContent_createLine tok htok]
    | cons c cs =>
      by_cases h : t = textContent c
      · simp [updateTextLoop, if_pos h, ih, h.symm]
      · simp [updateTextLoop, if_neg h, ih, textContent_createLine tok htok]

theorem setText_children (tok : Str → List MNode) (st : EState) (text : Str) :
    (setText tok st text).children = updateText tok st.children text := rfl

/-- C1: with a tokenizer satisfying the round-trip contract, `setText`
followed by `getText` reproduces `join(L, "\n")` exactly, for every array
of line texts free of the separator. -/
theorem getText_setText_round_trip (tok : Str → List MNode)
    (htok : ∀ s, textContentList (tok s) = s)
    (L : List Str) (hL : ∀ l ∈ L, '\n' ∉ l) (st : EState) :
    getText (setText tok st (joinSep '\n' L)).children = joinSep '\n' L := by
  rw [setText_children]
  unfold getText updateText
  rw [updateTextLoop_map_textContent tok htok, joinSep_splitChar]

theorem getText_setText_round_trip_witness :
    getText (setText tok0 (initEditor none) (joinSep '\n' ["ab".toList, "c".toList])).children =
      joinSep '\n' ["ab".toList, "c".toList] :=
  getText_setText_round_trip tok0
    (fun s => by simp [tok0, textContentList, textContent])
    ["ab".toList, "c".toList] (by decide) (initEditor none)

/-- C10: after construction and after every `setText`, the editor has at
least one rendered line child (splitting never yields an empty array), and
a freshly constructed editor's `getText` is the empty string. -/
theorem editor_never_lineless :
    (∀ sel, 1 ≤ (initEditor sel).children.length) ∧
    (∀ sel, getText (initEditor sel).children = []) ∧
    (∀ (tok : Str → List MNode) (st : EState) (text : Str),
      1 ≤ (setText tok st text).children.length) := by
  refine ⟨fun sel => by simp [initEditor], fun sel => rfl, fun tok st text => ?_⟩
  rw [setText_children]
  unfold updateText
  rw [updateTextLoop_length]
  exact List.length_pos.mpr (splitChar_ne_nil '\n' text)

theorem updateTextLoop_get (tok : Str → List MNode) (ts : List Str) (cs : List MNode)
    (i : Nat) (t : Str) (ht : ts[i]? = some t) :
    ((∃ c, cs[i]? = some c ∧ textContent c = t) →
      (updateTextLoop tok ts cs)[i]? = cs[i]?) ∧
    ((∀ c, cs[i]? = some c → textContent c ≠ t) →
      (updateTextLoop tok ts cs)[i]? = some (createLine tok t)) := by
  induction ts generalizing cs i with
  | nil => simp at ht
  | cons t0 ts ih =>
    cases i with
    | zero =>
      simp only [List.getElem?_cons_zero, Option.some.injEq] at ht
      subst ht
      cases cs with
      | nil =>
        refine ⟨fun h => absurd h.choose_spec.1 (by simp), fun _ => ?_⟩
        simp [updateTextLoop]
      | cons c cs =>
        have hloop : updateTextLoop tok (t0 :: ts) (c :: cs) =
            (if t0 = textContent c then c else createLine tok t0) ::
              updateTextLoop tok ts cs := rfl
        constructor
        · rintro ⟨c', hc', htc⟩
          simp only [List.getElem?_cons_zero, Option.some.injEq] at hc'
          subst hc'
          rw [hloop, List.getElem?_cons_zero, if_pos htc.symm, List.getElem?_cons_zero]
        · intro hall
          have hne := hall c (by simp)
          rw [hloop, List.getElem?_cons_zero, if_neg (fun h => hne h.symm)]
    | succ j =>
      simp only [List.getElem?_cons_succ] at ht
      cases cs with
      | nil =>
        refine ⟨fun h => absurd h.choose_spec.1 (by simp), fun _ => ?_⟩
        have hloop : updateTextLoop tok (t0 :: ts) ([] : List MNode) =
            createLine tok t0 :: updateTextLoop tok ts [] := rfl
        rw [hloop, List.getElem?_cons_succ]
        exact (ih [] j ht).2 (fun c hc => by simp at hc)
      | cons c cs =>
        have hrec := ih cs j ht
        have hloop : updateTextLoop tok (t0 :: ts) (c :: cs) =
            (if t0 = textContent c then c else createLine tok t0) ::
              updateTextLoop tok ts cs := rfl
        constructor
        · rintro ⟨c', hc', htc⟩
          rw [List.getElem?_cons_succ] at hc'
          rw [hloop, List.getElem?_cons_succ, List.getElem?_cons_succ]
          exact hrec.1 ⟨c', hc', htc⟩
        · intro hall
          rw [hloop, List.getElem?_cons_succ]
          exact hrec.2 fun c' hc' =>
            hall c' (by rw [List.getElem?_cons_succ]; exact hc')

/-- C8: `#updateText` produces exactly as many rendered lines as desired
line texts; an index whose current line already has the desired text keeps
its node, every other index gets a freshly created line. -/
theorem updateText_minimal_replacement (tok : Str → List MNode) (cs : List MNode)
    (text : Str) :
    (updateText tok cs text).length = (splitChar '\n' text).length ∧
    ∀ (i : Nat) (t : Str), (splitChar '\n' text)[i]? = some t →
      ((∃ c, cs[i]? = some c ∧ textContent c = t) →
        (updateText tok cs text)[i]? = cs[i]?) ∧
      ((∀ c, cs[i]? = some c → textContent c ≠ t) →
        (updateText tok cs text)[i]? = some (createLine tok t)) := by
  constructor
  · exact updateTextLoop_length tok (splitChar '\n' text) cs
  · exact fun i t ht => updateTextLoop_get tok (splitChar '\n' text) cs i t ht

theorem updateText_minimal_replacement_witness :
    (updateText tok0 [plainLine ("a".toList), plainLine ("b".toList)] ("a\nc".toList)).length =
      (splitChar '\n' ("a\nc".toList)).length ∧
    (updateText tok0 [plainLine ("a".toList), plainLine ("b".toList)] ("a\nc".toList))[0]? =
      some (plainLine ("a".toList)) ∧
    (updateText tok0 [plainLine ("a".toList), plainLine ("b".toList)] ("a\nc".toList))[1]? =
      some (createLine tok0 ("c".toList)) := by
  have h := updateText_minimal_replacement tok0
    [plainLine ("a".toList), plainLine ("b".toList)] ("a\nc".toList)
  refine ⟨h.1, ?_, ?_⟩
  · have hkeep := (h.2 0 ("a".toList) rfl).1 ⟨plainLine ("a".toList), rfl, rfl⟩
    rw [hkeep]; rfl
  · exact (h.2 1 ("c".toList) rfl).2 (fun c hc => by
      have hc' : plainLine ("b".toList) = c := by simpa using hc
      subst hc'
      decide)

/-- C9: a line whose text content is empty is targeted directly at offset
0, for any requested column — the walk over the leaves never runs. -/
theorem empty_line_fast_path (children : List MNode) (path : List Nat) (el : MNode)
    (hres : resolve children path = some el) (hempty : (textContent el).length = 0)
    (column : Nat) (range : Range) :
    moveCursorToColumn children path column range = collapsedRange (.inTree path) 0 := by
  unfold moveCursorToColumn
  rw [hres]
  simp [hempty]

theorem empty_line_fast_path_witness :
    moveCursorToColumn [emptyBrLine] [0] 7 freshRange = collapsedRange (.inTree [0]) 0 :=
  empty_line_fast_path [emptyBrLine] [0] emptyBrLine rfl rfl 7 freshRange

/-- C2 as stated is false: on the rendered line for `"# "` (block span
followed by the Anchor Marker), requesting column 1 — which is *not* the
block leaf's end, `"# ".length = 2` — still resolves to the Anchor Marker
at offset 0, because `moveTo` never compares `column` with the leaf's
end. -/
theorem anchor_counterexample :
    moveCursorToColumn [hashLine] [0] 1 freshRange = collapsedRange (.inTree [0, 1]) 0 ∧
    (1 : Nat) ≠ ("# ".toList).length :=
  ⟨rfl, by decide⟩

mutual

/-- When `column` exceeds the text remaining under `n`, the walk finds no
leaf and only accumulates `n`'s text length. -/
theorem walkNode_beyond (column : Nat) (n : MNode) (offset : Nat)
    (h : offset + (textContent n).length < column) :
    walkNode column n offset = .inl (offset + (textContent n).length) := by
  cases n with
  | text s =>
    rw [walkNode, if_neg (by simp only [textContent] at h; omega)]
    simp [textContent]
  | elem tag cls cs =>
    rw [walkNode]
    have hx := walkChildren_beyond column cs 0 offset
      (by simpa only [textContent] using h)
    simpa only [textContent] using hx

/-- List version of `walkNode_beyond`. -/
theorem walkChildren_beyond (column : Nat) (cs : List MNode) (i offset : Nat)
    (h : offset + (textContentList cs).length < column) :
    walkChildren column cs i offset = .inl (offset + (textContentList cs).length) := by
  cases cs with
  | nil => simp [walkChildren, textContentList]
  | cons c cs' =>
    have h1 : offset + (textContent c).length < column := by
      simp only [textContentList, List.length_append] at h; omega
    have h2 : offset + (textContent c).length + (textContentList cs').length < column := by
      simp only [textContentList, List.length_append] at h; omega
    rw [walkChildren, walkNode_beyond column c offset h1]
    show walkChildren column cs' (i + 1) (offset + (textContent c).length)
      = .inl (offset + (textContentList (c :: cs')).length)
    rw [walkChildren_beyond column cs' (i + 1) (offset + (textContent c).length) h2]
    congr 1
    simp only [textContentList, List.length_append]
    omega

end

theorem resolveIn_nil (n : MNode) : resolveIn n [] = some n := by
  cases n <;> rfl

theorem resolve_cons (children : List MNode) (i : Nat) (c : MNode) (p : List Nat)
    (h : children[i]? = some c) : resolve children (i :: p) = resolveIn c p := by
  show (match children[i]? with | some c => resolveIn c p | none => none) = resolveIn c p
  rw [h]

/-- Once the walk has passed `xs` without a match (accumulating `off`), it
continues into `ys` at the next child index. -/
theorem walkChildren_append (column : Nat) (xs ys : List MNode) (i offset off : Nat)
    (h : walkChildren column xs i offset = .inl off) :
    walkChildren column (xs ++ ys) i offset = walkChildren column ys (i + xs.length) off := by
  induction xs generalizing i offset with
  | nil =>
    have hoo : offset = off := by simpa [walkChildren] using h
    subst hoo
    simp [walkChildren]
  | cons c xs ih =>
    cases hw : walkNode column c offset with
    | inl o =>
      have h' : walkChildren column xs (i + 1) o = .inl off := by
        rw [walkChildren, hw] at h
        exact h
      rw [List.cons_append, walkChildren, hw]
      show walkChildren column (xs ++ ys) (i + 1) o
        = walkChildren column ys (i + (c :: xs).length) off
      rw [ih (i + 1) o h']
      have hix : i + 1 + xs.length = i + (c :: xs).length := by
        simp only [List.length_cons]
        omega
      rw [hix]
    | inr pr =>
      rw [walkChildren, hw] at h
      simp at h

/-- `moveTo` on a text node that is the only child of the element at
`q ++ [j]`, whose next sibling resolves to an Anchor Marker: the range is
collapsed at the Anchor Marker, offset 0. -/
theorem moveTo_anchor (children : List MNode) (q : List Nat) (j : Nat) (anc : MNode)
    (hsib : resolve children (q ++ [j + 1]) = some anc)
    (hanc : shouldSetCursor anc = true)
    (column off : Nat) (range : Range) :
    moveTo children ((q ++ [j]) ++ [0]) column off range
      = collapsedRange (.inTree (q ++ [j + 1])) 0 := by
  simp only [moveTo, List.dropLast_concat, List.getLast?_concat, hsib, hanc, if_true]

/-- C2 amended: for every rendered line whose last tagged child is a
fixed-width block token (a classified span wrapping one text leaf)
followed by an Anchor Marker, the caret is placed at offset 0 of the
Anchor Marker whenever the requested column lands in that block leaf —
strictly beyond the preceding leaves' total text length and at most the
leaf's end — not only when it lands exactly at the leaf's end; in
particular, for line text `"# "`, column 2 resolves to the Anchor Marker
at offset 0. -/
theorem anchor_whenever_leaf_matched (children : List MNode) (i : Nat)
    (ltag btag : String) (lcls bcls : List String) (pre : List MNode)
    (s : Str) (anc : MNode)
    (hline : children[i]? =
      some (.elem ltag lcls (pre ++ [.elem btag bcls [.text s], anc])))
    (hblock : isFixedWidthBlock (.elem btag bcls [.text s]) = true)
    (hanc : shouldSetCursor anc = true)
    (column : Nat)
    (hlo : (textContentList pre).length < column)
    (hhi : column ≤ (textContentList pre).length + s.length)
    (range : Range) :
    moveCursorToColumn children [i] column range
      = collapsedRange (.inTree [i, pre.length + 1]) 0 := by
  have hres : resolve children [i] =
      some (.elem ltag lcls (pre ++ [.elem btag bcls [.text s], anc])) := by
    rw [resolve_cons children i _ [] hline]
    rfl
  have hnz : (textContent
      (MNode.elem ltag lcls (pre ++ [.elem btag bcls [.text s], anc]))).length ≠ 0 := by
    show (textContentList (pre ++ [.elem btag bcls [.text s], anc])).length ≠ 0
    rw [textContentList_append]
    have hrest : (textContentList [MNode.elem btag bcls [.text s], anc]).length
        = s.length + (textContent anc).length := by
      simp [textContentList, textContent]
    simp only [List.length_append, hrest]
    omega
  have hpre : walkChildren column pre 0 0 = .inl (textContentList pre).length := by
    have hb := walkChildren_beyond column pre 0 0 (by omega)
    simpa using hb
  have hblk : walkNode column (MNode.elem btag bcls [.text s]) (textContentList pre).length
      = .inr ([0], (textContentList pre).length) := by
    show walkChildren column [.text s] 0 (textContentList pre).length = _
    rw [walkChildren, walkNode, if_pos hhi]
  have hwalk : walkNode column
      (MNode.elem ltag lcls (pre ++ [.elem btag bcls [.text s], anc])) 0
      = .inr ([pre.length, 0], (textContentList pre).length) := by
    rw [walkNode, walkChildren_append column pre _ 0 0 _ hpre]
    rw [walkChildren, hblk]
    simp
  have hgetanc : (pre ++ [MNode.elem btag bcls [.text s], anc])[pre.length + 1]? = some anc := by
    rw [List.getElem?_append_right (by omega)]
    rw [Nat.add_sub_cancel_left pre.length 1]
    rfl
  have hsib : resolve children ([i] ++ [pre.length + 1]) = some anc := by
    rw [show ([i] ++ [pre.length + 1] : List Nat) = i :: [pre.length + 1] from rfl]
    rw [resolve_cons children i _ [pre.length + 1] hline]
    unfold resolveIn
    rw [hgetanc]
    exact resolveIn_nil anc
  unfold moveCursorToColumn
  rw [hres]
  simp only [if_neg hnz]
  rw [hwalk]
  show moveTo children ([i] ++ [pre.length, 0]) column (textContentList pre).length range
    = collapsedRange (.inTree [i, pre.length + 1]) 0
  exact moveTo_anchor children [i] pre.length anc hsib hanc column
    (textContentList pre).length range

theorem anchor_whenever_leaf_matched_witness :
    moveCursorToColumn [hashLine] [0] 2 freshRange = collapsedRange (.inTree [0, 1]) 0 :=
  anchor_whenever_leaf_matched [hashLine] 0 "div" "span" ["mj-line"]
    ["section", "mj-hash", "mj-h1-hash", "mj-block"] [] ("# ".toList)
    (.elem "span" ["mj-cursor"] []) rfl rfl rfl 2 (by decide) (by decide) freshRange

/-- C3 as stated is false: for the line `"ab"` and requested column 5, the
range is returned untouched (still the fresh document range), not collapsed
at the end of the line's last leaf. -/
theorem beyond_length_counterexample :
    moveCursorToColumn [plainLine ("ab".toList)] [0] 5 freshRange = freshRange ∧
    freshRange ≠ collapsedRange (.inTree [0, 0]) ("ab".toList).length :=
  ⟨rfl, by decide⟩

/-- C3 amended: when the requested column is strictly greater than the
line's total text length (and the line is nonempty), no leaf reaches the
column and `moveCursorToColumn` leaves the range unchanged — the caret is
not placed at the end of the last leaf. -/
theorem beyond_length_leaves_range (children : List MNode) (path : List Nat) (el : MNode)
    (hres : resolve children path = some el) (hne : (textContent el).length ≠ 0)
    (column : Nat) (hcol : (textContent el).length < column) (range : Range) :
    moveCursorToColumn children path column range = range := by
  unfold moveCursorToColumn
  rw [hres]
  simp only [if_neg hne]
  rw [show walkNode column el 0 = .inl (0 + (textContent el).length) from
    walkNode_beyond column el 0 (by omega)]

theorem beyond_length_leaves_range_witness :
    moveCursorToColumn [plainLine ("xyz".toList)] [0] 9 freshRange = freshRange :=
  beyond_length_leaves_range [plainLine ("xyz".toList)] [0] (plainLine ("xyz".toList))
    rfl (by decide) 9 (by decide) freshRange

/-- C5 as stated is false: `st6` has its caret at `{line: 5, column: 3}`;
after `setText("a\nb")` shrinks the document to 2 lines, line 1 (`"b"`) is
shorter than column 3, no leaf reaches the column, and the restored
selection is the untouched fresh document range — the caret is *not*
inside line 1. -/
theorem caret_clamp_counterexample :
    (setText tok0 st6 ("a\nb".toList)).selection = some freshRange ∧
    freshRange.endContainer = SelNode.docRoot :=
  ⟨rfl, rfl⟩

/-- C5 amended: the snapshot's line index is clamped into
`[0, lineCount-1]` (restoring at any line beyond the document restores at
the last line), and the column is honored by walking the text only when
some leaf reaches it: with new text `"hello\nworld"`, whose line 1 is long
enough, the caret previously at `{line: 5, column: 3}` is restored inside
line 1 at offset 3; when the clamped line's nonempty text is shorter than
the column the selection is left at the fresh document range instead. -/
theorem caret_restore_clamps_line (children : List MNode) (sel : Option Range) (r : Range)
    (hsel : sel = some r) (pos : CursorPos)
    (hline : (children.length : Int) ≤ pos.line) :
    setCursorPos children sel (some pos) =
      setCursorPos children sel (some ⟨(children.length : Int) - 1, pos.column⟩) ∧
    (setText tok0 st6 ("hello\nworld".toList)).selection =
      some (collapsedRange (.inTree [1, 0]) 3) := by
  subst hsel
  refine ⟨?_, rfl⟩
  show some (moveCursorToColumn children
      [(min (max pos.line 0) ((children.length : Int) - 1)).toNat] pos.column freshRange) =
    some (moveCursorToColumn children
      [(min (max ((children.length : Int) - 1) 0) ((children.length : Int) - 1)).toNat]
      pos.column freshRange)
  have heq : min (max pos.line 0) ((children.length : Int) - 1)
      = min (max ((children.length : Int) - 1) 0) ((children.length : Int) - 1) := by omega
  rw [heq]

theorem caret_restore_clamps_line_witness :
    setCursorPos [plainLine ("a".toList)] (some freshRange) (some ⟨5, 3⟩) =
      setCursorPos [plainLine ("a".toList)] (some freshRange)
        (some ⟨(([plainLine ("a".toList)] : List MNode).length : Int) - 1, 3⟩) ∧
    (setText tok0 st6 ("hello\nworld".toList)).selection =
      some (collapsedRange (.inTree [1, 0]) 3) :=
  caret_restore_clamps_line [plainLine ("a".toList)] (some freshRange) freshRange rfl
    ⟨5, 3⟩ (by decide)

/-- C6: `#getCursorPos` returns `null` (never throws, never guesses) when
the selection is absent, and whenever the selection endpoint has no
enclosing rendered line — in particular when it targets the editor surface
itself or a node with no parent element. -/
theorem cursor_pos_null_when_unmappable (children : List MNode) (sel : Option Range) :
    (sel = none → getCursorPos children sel = none) ∧
    (∀ r : Range, sel = some r → getLineElement children r.startContainer = none →
      getCursorPos children sel = none) ∧
    getLineElement children (.inTree []) = none ∧
    getLineElement children .orphan = none := by
  refine ⟨fun h => by rw [h]; rfl, fun r hr hle => ?_, rfl, rfl⟩
  rw [hr]
  unfold getCursorPos
  simp [hle]

theorem cursor_pos_null_when_unmappable_witness :
    getCursorPos ([] : List MNode) none = none :=
  (cursor_pos_null_when_unmappable [] none).1 rfl

theorem notify_foldl_inv (lines : List (List Nat)) (st : SchedState)
    (h : st.pendingIds = st.lastId.toList) :
    (lines.foldl (fun s l => notifyEdit s (some l)) st).pendingIds
      = (lines.foldl (fun s l => notifyEdit s (some l)) st).lastId.toList ∧
    (lines.foldl (fun s l => notifyEdit s (some l)) st).passes = st.passes ∧
    (lines.foldl (fun s l => notifyEdit s (some l)) st).dirty
      = lines.foldl setAdd st.dirty := by
  induction lines generalizing st with
  | nil => exact ⟨h, rfl, rfl⟩
  | cons l ls ih =>
    simp only [List.foldl_cons]
    have h1 : (notifyEdit st (some l)).pendingIds = (notifyEdit st (some l)).lastId.toList := by
      unfold notifyEdit arm
      cases hl : st.lastId <;> simp [h, hl]
    obtain ⟨a, b, c⟩ := ih (notifyEdit st (some l)) h1
    exact ⟨a, b.trans (by exact rfl), c.trans (by exact rfl)⟩

theorem notify_foldl_lastId (lines : List (List Nat)) (st : SchedState) (hne : lines ≠ []) :
    ((lines.foldl (fun s l => notifyEdit s (some l)) st).lastId).isSome := by
  induction lines generalizing st with
  | nil => exact absurd rfl hne
  | cons l ls ih =>
    simp only [List.foldl_cons]
    cases ls with
    | nil => rfl
    | cons a as => exact ih _ (by simp)

theorem mem_foldl_setAdd (lines : List (List Nat)) (init : List (List Nat)) (x : List Nat) :
    x ∈ lines.foldl setAdd init ↔ x ∈ init ∨ x ∈ lines := by
  induction lines generalizing init with
  | nil => simp
  | cons l ls ih =>
    simp only [List.foldl_cons, ih, List.mem_cons]
    unfold setAdd
    by_cases h : l ∈ init
    · rw [if_pos h]
      constructor
      · rintro (hx | hx)
        · exact Or.inl hx
        · exact Or.inr (Or.inr hx)
      · rintro (hx | hx | hx)
        · exact Or.inl hx
        · exact Or.inl (hx ▸ h)
        · exact Or.inr hx
    · rw [if_neg h]
      simp only [List.mem_append, List.mem_singleton]
      tauto

/-- C4: during a burst of notifications (no task has fired yet) the
scheduler keeps at most one pending callback — arming cancels and replaces
the previous one — and firing the single pending callback runs exactly one
reconciliation pass, whose dirty set is the union of the notified lines,
after which the dirty set is empty.  (The `≤ 1` conjunct, quantified over
every burst, covers every intermediate state, since each prefix of a burst
is itself a burst.) -/
theorem burst_single_pending_single_pass (lines : List (List Nat)) (hne : lines ≠ []) :
    (burstState lines).pendingIds.length ≤ 1 ∧
    ∃ id, (burstState lines).pendingIds = [id] ∧
      (fire (burstState lines) id).passes = [(burstState lines).dirty] ∧
      (∀ l, l ∈ (burstState lines).dirty ↔ l ∈ lines) ∧
      (fire (burstState lines) id).dirty = [] := by
  have hinv := notify_foldl_inv lines initSched rfl
  have hsome := notify_foldl_lastId lines initSched hne
  obtain ⟨i, hi⟩ := Option.isSome_iff_exists.mp hsome
  have hpend : (burstState lines).pendingIds = [i] := by
    show (lines.foldl (fun s l => notifyEdit s (some l)) initSched).pendingIds = [i]
    rw [hinv.1, hi]
    rfl
  have hdirty : ∀ l, l ∈ (burstState lines).dirty ↔ l ∈ lines := by
    intro l
    show l ∈ (lines.foldl (fun s l => notifyEdit s (some l)) initSched).dirty ↔ _
    rw [hinv.2.2, mem_foldl_setAdd]
    simp [initSched]
  have hfire : fire (burstState lines) i =
      { burstState lines with
        pendingIds := (burstState lines).pendingIds.erase i
        passes := (burstState lines).passes ++ [(burstState lines).dirty]
        dirty := [] } := by
    unfold fire
    rw [if_pos (by rw [hpend]; exact List.mem_singleton.mpr rfl)]
  have hpasses : (burstState lines).passes = [] := by
    show (lines.foldl (fun s l => notifyEdit s (some l)) initSched).passes = []
    rw [hinv.2.1]
    rfl
  refine ⟨by rw [hpend]; simp, i, hpend, ?_, hdirty, by rw [hfire]⟩
  rw [hfire]
  show (burstState lines).passes ++ [(burstState lines).dirty] = _
  rw [hpasses, List.nil_append]

theorem burst_single_pending_single_pass_witness :
    (burstState [[0], [1], [0]]).pendingIds.length ≤ 1 ∧
    ∃ id, (burstState [[0], [1], [0]]).pendingIds = [id] ∧
      (fire (burstState [[0], [1], [0]]) id).passes = [(burstState [[0], [1], [0]]).dirty] ∧
      (∀ l, l ∈ (burstState [[0], [1], [0]]).dirty ↔ l ∈ [[0], [1], [0]]) ∧
      (fire (burstState [[0], [1], [0]]) id).dirty = [] :=
  burst_single_pending_single_pass [[0], [1], [0]] (by simp)

theorem reconcile_foldl_childIds (tok : Str → List MNode) (dirty : List Nat)
    (acc : Doc × List Nat) :
    (dirty.foldl (patchStep tok) acc).1.childIds = acc.1.childIds := by
  induction dirty generalizing acc with
  | nil => rfl
  | cons m dirty ih =>
    simp only [List.foldl_cons]
    rw [ih]
    unfold patchStep
    by_cases h : m ∈ acc.1.childIds
    · rw [if_pos h]
    · rw [if_neg h]

theorem reconcile_foldl_content_keep (tok : Str → List MNode) (dirty : List Nat)
    (acc : Doc × List Nat) (l : Nat) (hl : l ∉ acc.1.childIds ∨ l ∉ dirty) :
    (dirty.foldl (patchStep tok) acc).1.content l = acc.1.content l := by
  induction dirty generalizing acc with
  | nil => rfl
  | cons m dirty ih =>
    simp only [List.foldl_cons]
    have hstep : (patchStep tok acc m).1.content l = acc.1.content l ∧
        (patchStep tok acc m).1.childIds = acc.1.childIds := by
      unfold patchStep
      by_cases h : m ∈ acc.1.childIds
      · rw [if_pos h]
        refine ⟨?_, rfl⟩
        have hml : l ≠ m := by
          rcases hl with h1 | h1
          · exact fun he => h1 (he ▸ h)
          · exact fun he => h1 (he ▸ List.mem_cons_self m dirty)
        simp [hml]
      · rw [if_neg h]
        exact ⟨rfl, rfl⟩
    rw [ih _ ?_, hstep.1]
    rcases hl with h1 | h1
    · exact Or.inl (hstep.2 ▸ h1)
    · exact Or.inr (fun hmem => h1 (List.mem_cons_of_mem m hmem))

theorem reconcile_foldl_warns (tok : Str → List MNode) (dirty : List Nat)
    (acc : Doc × List Nat) (l : Nat) (hl : l ∈ acc.2 ∨ (l ∈ dirty ∧ l ∉ acc.1.childIds)) :
    l ∈ (dirty.foldl (patchStep tok) acc).2 := by
  induction dirty generalizing acc with
  | nil =>
    rcases hl with h1 | ⟨h1, _⟩
    · exact h1
    · simp at h1
  | cons m dirty ih =>
    simp only [List.foldl_cons]
    apply ih
    unfold patchStep
    by_cases h : m ∈ acc.1.childIds
    · rw [if_pos h]
      rcases hl with h1 | ⟨h1, h2⟩
      · exact Or.inl h1
      · refine Or.inr ⟨?_, h2⟩
        rcases List.mem_cons.mp h1 with he | hm
        · exact absurd (he ▸ h) h2
        · exact hm
    · rw [if_neg h]
      rcases hl with h1 | ⟨h1, h2⟩
      · exact Or.inl (List.mem_append_left _ h1)
      · rcases List.mem_cons.mp h1 with he | hm
        · exact Or.inl (List.mem_append_right _ (he ▸ List.mem_singleton.mpr rfl))
        · exact Or.inr ⟨hm, h2⟩

theorem reconcile_foldl_patched (tok : Str → List MNode) (dirty : List Nat)
    (acc : Doc × List Nat) (l : Nat) (hnd : dirty.Nodup) (hl : l ∈ dirty)
    (hc : l ∈ acc.1.childIds) :
    (dirty.foldl (patchStep tok) acc).1.content l
      = updateLine tok (textContent (acc.1.content l)) := by
  induction dirty generalizing acc with
  | nil => simp at hl
  | cons m dirty ih =>
    simp only [List.foldl_cons]
    rcases List.mem_cons.mp hl with he | hm
    · subst he
      have hnotin : l ∉ dirty := (List.nodup_cons.mp hnd).1
      have hstep : (patchStep tok acc l).1.content l
          = updateLine tok (textContent (acc.1.content l)) := by
        unfold patchStep
        rw [if_pos hc]
        simp
      rw [reconcile_foldl_content_keep tok dirty _ l (Or.inr hnotin), hstep]
    · have hstep : (patchStep tok acc m).1.content l = acc.1.content l ∧
          (patchStep tok acc m).1.childIds = acc.1.childIds := by
        unfold patchStep
        by_cases h : m ∈ acc.1.childIds
        · rw [if_pos h]
          have hml : l ≠ m := fun he => (List.nodup_cons.mp hnd).1 (he ▸ hm)
          simp [hml]
        · rw [if_neg h]
          exact ⟨rfl, rfl⟩
      rw [ih _ (List.nodup_cons.mp hnd).2 hm (hstep.2 ▸ hc), hstep.1]

/-- C7: during a reconciliation pass, every dirty node that is no longer a
direct child of the editing surface keeps its subtree unchanged and is
logged as a diagnostic, while the pass still patches every attached dirty
node (it is not aborted). -/
theorem detached_dirty_skipped (tok : Str → List MNode) (doc : Doc) (dirty : List Nat)
    (hnd : dirty.Nodup) :
    (∀ l ∈ dirty, l ∉ doc.childIds →
      (reconcileDirty tok doc dirty).1.content l = doc.content l ∧
      l ∈ (reconcileDirty tok doc dirty).2) ∧
    (∀ l ∈ dirty, l ∈ doc.childIds →
      (reconcileDirty tok doc dirty).1.content l
        = updateLine tok (textContent (doc.content l))) := by
  constructor
  · intro l hl hnc
    exact ⟨reconcile_foldl_content_keep tok dirty (doc, []) l (Or.inl hnc),
      reconcile_foldl_warns tok dirty (doc, []) l (Or.inr ⟨hl, hnc⟩)⟩
  · intro l hl hc
    exact reconcile_foldl_patched tok dirty (doc, []) l hnd hl hc

theorem detached_dirty_skipped_witness :
    ((reconcileDirty tok0 docW [0, 5]).1.content 5 = docW.content 5 ∧
      5 ∈ (reconcileDirty tok0 docW [0, 5]).2) ∧
    (reconcileDirty tok0 docW [0, 5]).1.content 0
      = updateLine tok0 (textContent (docW.content 0)) :=
  ⟨(detached_dirty_skipped tok0 docW [0, 5] (by decide)).1 5 (by decide) (by decide),
   (detached_dirty_skipped tok0 docW [0, 5] (by decide)).2 0 (by decide) (by decide)⟩

end Markjar
